import Mathlib

/-
Verification of the ghq-mover tool (src/main.rs) against its design
specification.  The program discovers Git working trees under a scan root,
plans a destination `ghq_dir/host/owner/name` for each from its `origin`
remote URL, and relocates each tree after confirmation.

The embedding below models:
  * Rust strings as `List Char` and Rust `PathBuf` values as lists of
    path components (`List (List Char)`), with `PathBuf::push` semantics
    (an absolute argument replaces the buffer, separators split);
  * the walkdir traversal of `find_git_repos` (directories only,
    default no-follow for symlinks, `skip_current_dir` on a `.git`
    entry pruning only the contents of the `.git` directory itself);
  * the git2 calls (`Repository::open`, `find_remote("origin")`,
    `Remote::url`) as an environment table keyed by repository root;
  * the filesystem touched by the move loop of `main_inner`
    (`Path::exists`, `fs::create_dir_all`, `fs::rename`) as an explicit
    state with fault-injection sets for the two fallible operations;
  * the orchestration of `main_inner` (empty-scan notice, confirmation
    gate, per-plan move loop, final exit status).
-/

namespace GhqMover

/-- Rust string slices, modelled as lists of characters. -/
abbrev Str := List Char

/-- A filesystem path as its list of components (absolute root implicit). -/
abbrev FPath := List Str

/-- Convenience injection from Lean string literals. -/
def str (s : String) : Str := s.data

/-- Rust `str::split_once(c)`: split at the first occurrence of `c`,
returning the parts before and after it, or `none` when `c` is absent. -/
def splitOnce : Str → Char → Option (Str × Str)
  | [], _ => none
  | c :: t, sep =>
    if c = sep then some ([], t)
    else (splitOnce t sep).map (fun q => (c :: q.1, q.2))

/-- Whether character `c` occurs in `s` (Rust `str::contains(c)`). -/
def hasChar : Str → Char → Bool
  | [], _ => false
  | c :: t, x => if c = x then true else hasChar t x

/-- Boolean list-prefix test used by the suffix-trimming model. -/
def isPre : Str → Str → Bool
  | [], _ => true
  | _ :: _, [] => false
  | a :: as, b :: bs => if a = b then isPre as bs else false

/-- The reversal of the literal `".git"`. -/
def gitPatRev : Str := ['t', 'i', 'g', '.']

/-- The literal `".git"` as a character list. -/
def gitPat : Str := ['.', 'g', 'i', 't']

/-- Worker for `trim_end_matches(".git")`, acting on the reversed string:
repeatedly drop a leading occurrence of the reversed pattern. -/
def trimRevGit : Str → Str
  | 't' :: 'i' :: 'g' :: '.' :: rest => trimRevGit rest
  | l => l

/-- Rust `str::trim_end_matches(".git")`: remove every trailing repetition
of the literal `".git"`. -/
def trimEndGit (s : Str) : Str := (trimRevGit s.reverse).reverse

/-- Whether `s` ends with the literal `".git"`. -/
def hasGitSuffix (s : Str) : Bool := isPre gitPatRev s.reverse

/-- Split `s` at every occurrence of `sep` (Rust path-component splitting). -/
def splitAll : Str → Char → List Str
  | [], _ => [[]]
  | c :: t, sep =>
    if c = sep then [] :: splitAll t sep
    else
      match splitAll t sep with
      | [] => [[c]]
      | h :: r => (c :: h) :: r

/-- Rust `PathBuf::push`: an argument starting with the separator replaces
the whole buffer, otherwise its non-empty components are appended. -/
def pathPush (p : FPath) (s : Str) : FPath :=
  let comps := (splitAll s '/').filter (fun x => !x.isEmpty)
  match s with
  | '/' :: _ => comps
  | _ => p ++ comps

/-- Rust `PathBuf::from` on a raw string. -/
def pathOfStr (s : Str) : FPath := (splitAll s '/').filter (fun x => !x.isEmpty)

/-- Rust `Path::parent`: `none` at the root, otherwise the path without its
final component. -/
def pathParent : FPath → Option FPath
  | [] => none
  | p => some p.dropLast

/-- Result of `git_url_parse::GitUrl::parse` as consumed by the program:
only the `.host()` and `.path()` accessors are used. -/
structure GitUrlParsed where
  host : Option Str
  path : Str
deriving DecidableEq, Repr

/-- Validation of the `owner/name(.git)?` portion of a remote URL:
a non-empty owner before the first separator, a name containing no
further separator, and a name that is non-empty once the trailing
`.git` marker is stripped. -/
def validOwnerName (p : Str) : Bool :=
  match splitOnce p '/' with
  | none => false
  | some (o, n) => decide (o ≠ []) && !hasChar n '/' && decide (trimEndGit n ≠ [])

/-- Assemble a parse result after validating host and path. -/
def mkParsed (h p : Str) : Option GitUrlParsed :=
  if h ≠ [] ∧ hasChar h '/' = false ∧ validOwnerName p = true then
    some ⟨some h, p⟩
  else none

/-- Modelled from the spec: the `git_url_parse` crate (the implementation of
`GitUrl::parse`, `.host()` and `.path()`) is an external dependency whose
source is not part of this repository.  Following spec section 4.3, the
parser accepts `https://host/owner/name(.git)?`,
`ssh://[user@]host[:port]/owner/name(.git)?` and the scp-like shorthand
`user@host:owner/name(.git)?`; every accepted URL yields a host and the
verbatim `owner/name(.git)?` path portion, and anything else is a parse
failure.  Host extraction is case-preserving and owner/name segments are
taken verbatim. -/
def parseUrl (u : Str) : Option GitUrlParsed :=
  if isPre (str "https://") u then
    match splitOnce (u.drop 8) '/' with
    | none => none
    | some (h, p) => mkParsed h p
  else if isPre (str "ssh://") u then
    match splitOnce (u.drop 6) '/' with
    | none => none
    | some (auth, p) =>
      let hostPort := match splitOnce auth '@' with
        | none => auth
        | some (_, r) => r
      let h := match splitOnce hostPort ':' with
        | none => hostPort
        | some (x, _) => x
      mkParsed h p
  else
    match splitOnce u '@' with
    | none => none
    | some (user, rest) =>
      if user = [] ∨ hasChar user '/' then none
      else
        match splitOnce rest ':' with
        | none => none
        | some (h, p) => mkParsed h p

mutual
/-- A directory-tree node as walkdir sees it: a plain directory with named
children, a regular file, or a symbolic link (with the node it resolves to).
`WalkDir` is used with its defaults, so symbolic links are reported with
file type *symlink* and are never followed. -/
inductive FsNode where
  | dir (name : Str) (children : FsForest)
  | file (name : Str)
  | symlink (name : Str) (target : FsNode)

/-- A sequence of sibling directory entries. -/
inductive FsForest where
  | nil
  | cons (hd : FsNode) (tl : FsForest)
end

/-- Build a forest from a list of nodes. -/
def forest : List FsNode → FsForest
  | [] => .nil
  | n :: t => .cons n (forest t)

/-- The metadata directory name `".git"`. -/
def gitDirName : Str := gitPat

/-- The walkdir loop of `find_git_repos` over a forest of sibling entries,
returning the discovered repository roots as paths relative to the
directory whose entries are being visited.  The iterator is filtered with
`filter_entry(is_dir)`, so only plain directories are yielded or descended
into.  When a yielded directory entry is named `.git`, its parent — the
current directory, relative path `[]` — is recorded as a repository root
and `skip_current_dir()` prunes the contents of that `.git` entry (and
only them); traversal then continues with the remaining siblings. -/
def scanForest : FsForest → List FPath
  | .nil => []
  | .cons (.dir n cs) rest =>
    (if n = gitDirName then [[]] else (scanForest cs).map (fun q => n :: q)) ++ scanForest rest
  | .cons (.file _) rest => scanForest rest
  | .cons (.symlink _ _) rest => scanForest rest

/-- Remove every symbolic-link entry, recursively, from a forest. -/
def pruneLinks : FsForest → FsForest
  | .nil => .nil
  | .cons (.dir n cs) rest => .cons (.dir n (pruneLinks cs)) (pruneLinks rest)
  | .cons (.file n) rest => .cons (.file n) (pruneLinks rest)
  | .cons (.symlink _ _) rest => pruneLinks rest

/-- Result of the git2 calls for one repository root: whether
`Repository::open` succeeds, and — when it does — the result of
`find_remote("origin")` (`none` for `Err`) together with the remote's
optional URL (`Remote::url` returns an `Option`). -/
structure RepoInfo where
  opensOk : Bool
  originRemote : Option (Option Str)
deriving DecidableEq, Repr

/-- The environment `find_git_repos` and `main_inner` run against: the scan
root (its parent path and its tree), the git2 state of each repository
root, and the inputs of workspace-root resolution (`GHQ_ROOT` variable,
home directory). -/
structure World where
  baseParent : FPath
  baseTree : FsNode
  repoState : List (FPath × RepoInfo)
  ghqEnv : Option Str
  home : Option FPath

/-- Look up the git2 state of a repository root; an unlisted root behaves
as a directory that fails to open as a repository. -/
def lookupRepo : List (FPath × RepoInfo) → FPath → Option RepoInfo
  | [], _ => none
  | e :: t, p => if e.1 = p then some e.2 else lookupRepo t p

/-- Workspace-root resolution at the top of `find_git_repos`: `GHQ_ROOT` if
set, else `home_dir()` (whose absence is a fatal error) extended by `ghq`. -/
def resolveGhqDir (w : World) : Except Unit FPath :=
  match w.ghqEnv with
  | some s => .ok (pathOfStr s)
  | none =>
    match w.home with
    | none => .error ()
    | some h => .ok (pathPush h (str "ghq"))

/-- The repository roots produced by the walkdir loop, in traversal order,
as absolute paths: `entry.path().parent()` prepends the location of the
scan root. -/
def scanRoots (w : World) : List FPath :=
  (scanForest (forest [w.baseTree])).map (fun q => w.baseParent ++ q)

/-- Lines 110–120 of `main.rs`: parse the remote URL, split its path at the
first separator into owner and repository name, and build the destination
`ghq_dir/host/owner/name` with the trailing `.git` trimmed from the name.
A parse failure or an unsplittable path skips the repository (`none`);
a parsed URL without a host is propagated as an error by the `?` on
`context("Invalid Git URL")`. -/
def planFromUrl (ghq : FPath) (url : Str) : Except Unit (Option FPath) :=
  match parseUrl url with
  | none => .ok none
  | some g =>
    match splitOnce g.path '/' with
    | none => .ok none
    | some (owner, repoName) =>
      match g.host with
      | none => .error ()
      | some h =>
        .ok (some (pathPush (pathPush (pathPush ghq h) owner) (trimEndGit repoName)))

/-- The body of `find_git_repos` for one discovered repository root: the
`if let Ok(repo) … && let Ok(remote) … && let Some(url)` chain skips the
repository when opening fails, when there is no `origin` remote, or when
the remote has no URL; otherwise the URL is planned. -/
def planRepo (w : World) (ghq : FPath) (root : FPath) : Except Unit (Option (FPath × FPath)) :=
  match lookupRepo w.repoState root with
  | none => .ok none
  | some info =>
    if info.opensOk = false then .ok none
    else
      match info.originRemote with
      | none => .ok none
      | some none => .ok none
      | some (some url) =>
        match planFromUrl ghq url with
        | .error e => .error e
        | .ok none => .ok none
        | .ok (some dest) => .ok (some (root, dest))

/-- The per-repository outcome with the error dropped: `none` when the
repository is skipped or when processing it would abort the scan. -/
def planRepoOpt (w : World) (ghq : FPath) (root : FPath) : Option (FPath × FPath) :=
  match planRepo w ghq root with
  | .ok o => o
  | .error _ => none

/-- Process the discovered roots in traversal order, collecting the plans
of the successful ones and propagating any error. -/
def goPlans (w : World) (ghq : FPath) : List FPath → Except Unit (List (FPath × FPath))
  | [] => .ok []
  | r :: rs =>
    match planRepo w ghq r with
    | .error e => .error e
    | .ok o =>
      match goPlans w ghq rs with
      | .error e => .error e
      | .ok rest =>
        .ok (match o with
          | none => rest
          | some pl => pl :: rest)

/-- `find_git_repos`: resolve the workspace root, walk the scan root, and
produce one `(source, destination)` plan per successfully processed
repository. -/
def findGitRepos (w : World) : Except Unit (List (FPath × FPath)) :=
  match resolveGhqDir w with
  | .error e => .error e
  | .ok ghq => goPlans w ghq (scanRoots w)

/-- Outcome of one iteration of the move loop in `main_inner`. -/
inductive Outcome where
  | moved
  | skippedExists
  | failedCreate
  | failedRename
deriving DecidableEq, Repr

/-- The filesystem state seen by the move loop: relocatable directory trees
(root path, abstract contents), plain directories, and fault-injection
sets naming the paths at which `fs::create_dir_all` or `fs::rename` fail
(permissions, cross-device boundaries, …). -/
structure Fs where
  trees : List (FPath × Nat)
  dirs : List FPath
  createFails : List FPath
  renameFails : List FPath
deriving DecidableEq, Repr

/-- Content of the directory tree rooted at `p`, when one is present. -/
def lookupTree : List (FPath × Nat) → FPath → Option Nat
  | [], _ => none
  | e :: t, p => if e.1 = p then some e.2 else lookupTree t p

/-- Membership test for path lists. -/
def containsP : List FPath → FPath → Bool
  | [], _ => false
  | q :: t, p => if q = p then true else containsP t p

/-- Rust `Path::exists` on the modelled state. -/
def fsExists (fs : Fs) (p : FPath) : Bool :=
  containsP fs.dirs p || (lookupTree fs.trees p).isSome

/-- Effect of a successful `fs::create_dir_all(p)`. -/
def mkdirAll (fs : Fs) (p : FPath) : Fs :=
  { fs with dirs := p :: fs.dirs }

/-- Effect of a successful `fs::rename(src, dest)` on a directory tree:
the tree rooted at `src` is now rooted at `dest`, all else untouched. -/
def renameTree (fs : Fs) (src dest : FPath) : Fs :=
  { fs with trees := fs.trees.map (fun e => if e.1 = src then (dest, e.2) else e) }

/-- One iteration of the move loop (lines 46–65 of `main.rs`) on the plan
`(src, dest)`: skip when the destination exists; otherwise unwrap the
destination's parent (`none` models the panic of `unwrap` on a parentless
path), create it, and rename.  A failed creation or rename reports a
failure for this plan only. -/
def moveOne (fs : Fs) (pl : FPath × FPath) : Option (Outcome × Fs) :=
  if fsExists fs pl.2 then some (.skippedExists, fs)
  else
    match pathParent pl.2 with
    | none => none
    | some par =>
      if containsP fs.createFails par then some (.failedCreate, fs)
      else
        let fs1 := mkdirAll fs par
        if containsP fs1.renameFails pl.1 || !(lookupTree fs1.trees pl.1).isSome then
          some (.failedRename, fs1)
        else some (.moved, renameTree fs1 pl.1 pl.2)

/-- The whole move loop: every plan is processed in order; `none` models a
panic aborting the process. -/
def movePlans (fs : Fs) : List (FPath × FPath) → Option (List ((FPath × FPath) × Outcome) × Fs)
  | [] => some ([], fs)
  | pl :: rest =>
    match moveOne fs pl with
    | none => none
    | some (o, fs1) =>
      match movePlans fs1 rest with
      | none => none
      | some (os, fs2) => some ((pl, o) :: os, fs2)

/-- Observable result of one run of `main_inner` (wrapped by `main`):
process exit status, whether the confirmation prompt was shown, the final
filesystem state, and the console messages. -/
structure RunResult where
  exit : Nat
  prompted : Bool
  fs : Fs
  log : List String
deriving DecidableEq, Repr

/-- The notice printed when the scan finds nothing. -/
def noReposNotice : String := "No Git repositories found."

/-- `main_inner` (with `main`'s error handling folded in): an error from
`find_git_repos` exits with status 1; an empty scan prints a notice and
returns successfully before any prompt; a declined confirmation aborts
with no filesystem change; otherwise the move loop runs and the process
exits with status 0 (101 models a panic inside the loop). -/
def mainInner (w : World) (ans : Bool) (fs : Fs) : RunResult :=
  match findGitRepos w with
  | .error _ => ⟨1, false, fs, ["Error"]⟩
  | .ok repos =>
    if repos.isEmpty then ⟨0, false, fs, [noReposNotice]⟩
    else if ans = false then ⟨0, true, fs, ["Found repositories.", "Operation cancelled."]⟩
    else
      match movePlans fs repos with
      | none => ⟨101, true, fs, ["Found repositories."]⟩
      | some (_, fs1) => ⟨0, true, fs1, ["Found repositories.", "Done."]⟩

/-! Concrete environments used by the witness theorems below. -/

/-- A world with a single repository `work/a` whose origin is an HTTPS URL. -/
def wGood : World :=
  { baseParent := []
  , baseTree := .dir (str "work") (forest [.dir (str "a") (forest [.dir gitDirName .nil])])
  , repoState := [([str "work", str "a"], ⟨true, some (some (str "https://example.com/alice/proj.git"))⟩)]
  , ghqEnv := none
  , home := some [str "home", str "u"] }

/-- A world with three repositories: `work/bad` has an unparseable remote
URL, `work/a` is well-formed, and `work/corrupt` fails to open. -/
def wMixed : World :=
  { baseParent := []
  , baseTree := .dir (str "work") (forest
      [ .dir (str "bad") (forest [.dir gitDirName .nil])
      , .dir (str "a") (forest [.dir gitDirName .nil])
      , .dir (str "corrupt") (forest [.dir gitDirName .nil]) ])
  , repoState :=
      [ ([str "work", str "bad"], ⟨true, some (some (str "not a url"))⟩)
      , ([str "work", str "a"], ⟨true, some (some (str "https://example.com/alice/proj.git"))⟩)
      , ([str "work", str "corrupt"], ⟨false, none⟩) ]
  , ghqEnv := none
  , home := some [str "home", str "u"] }

/-- A world with two repositories, both well-formed. -/
def wTwo : World :=
  { baseParent := []
  , baseTree := .dir (str "work") (forest
      [ .dir (str "a") (forest [.dir gitDirName .nil])
      , .dir (str "b") (forest [.dir gitDirName .nil]) ])
  , repoState :=
      [ ([str "work", str "a"], ⟨true, some (some (str "https://example.com/alice/proj.git"))⟩)
      , ([str "work", str "b"], ⟨true, some (some (str "git@example.com:bob/tool.git"))⟩) ]
  , ghqEnv := none
  , home := some [str "home", str "u"] }

/-- A world whose scan root contains no repository. -/
def wEmpty : World :=
  { baseParent := []
  , baseTree := .dir (str "work") (forest [.dir (str "misc") .nil])
  , repoState := []
  , ghqEnv := none
  , home := some [str "home", str "u"] }

/-- A filesystem state holding the source tree of `wGood`'s repository. -/
def fsGood : Fs :=
  { trees := [([str "work", str "a"], 7)], dirs := [], createFails := [], renameFails := [] }

/-- A filesystem state for `wTwo` in which creating the parent directory of
the first plan's destination fails. -/
def fsFailFirst : Fs :=
  { trees := [([str "work", str "a"], 7), ([str "work", str "b"], 8)]
  , dirs := []
  , createFails := [[str "home", str "u", str "ghq", str "example.com", str "alice"]]
  , renameFails := [] }

/-- The nested-repository counterexample tree: `work/a` is a repository and
`work/a/vendor/lib` is a repository nested strictly inside it. -/
def nestedForest : FsForest :=
  forest [.dir (str "a") (forest
    [ .dir (str "vendor") (forest [.dir (str "lib") (forest [.dir gitDirName .nil])])
    , .dir gitDirName .nil ])]

/-- A forest holding one repository behind a symbolic link and one plain. -/
def linkForest : FsForest :=
  forest
    [ .symlink (str "s") (.dir (str "r") (forest [.dir gitDirName .nil]))
    , .dir (str "b") (forest [.dir gitDirName .nil]) ]

/-- A world in which the repository `work/a/vendor/lib` is nested strictly
inside the repository `work/a`, and both have well-formed remotes. -/
def wNested : World :=
  { baseParent := []
  , baseTree := .dir (str "work") (forest
      [ .dir (str "a") (forest
          [ .dir (str "vendor") (forest [.dir (str "lib") (forest [.dir gitDirName .nil])])
          , .dir gitDirName .nil ]) ])
  , repoState :=
      [ ([str "work", str "a"], ⟨true, some (some (str "https://example.com/alice/proj.git"))⟩)
      , ([str "work", str "a", str "vendor", str "lib"],
          ⟨true, some (some (str "https://example.com/alice/vendored.git"))⟩) ]
  , ghqEnv := none
  , home := some [str "home", str "u"] }

/-- The plan of `wGood`'s single repository. -/
def plGood : FPath × FPath :=
  ([str "work", str "a"],
   [str "home", str "u", str "ghq", str "example.com", str "alice", str "proj"])

/-- The plans of `wTwo`'s repositories, in traversal order. -/
def plansTwo : List (FPath × FPath) :=
  [ ([str "work", str "a"],
     [str "home", str "u", str "ghq", str "example.com", str "alice", str "proj"])
  , ([str "work", str "b"],
     [str "home", str "u", str "ghq", str "example.com", str "bob", str "tool"]) ]

/-- A filesystem state in which `plGood`'s destination already exists. -/
def fsHasDest : Fs :=
  { trees := [([str "work", str "a"], 7)]
  , dirs := [[str "home", str "u", str "ghq", str "example.com", str "alice", str "proj"]]
  , createFails := []
  , renameFails := [] }

/-! Helper lemmas about the string model. -/

theorem hasChar_false_iff {s : Str} {c : Char} : hasChar s c = false ↔ c ∉ s := by
  induction s with
  | nil => simp [hasChar]
  | cons a t ih =>
    by_cases h : a = c
    · subst h
      simp [hasChar]
    · simp [hasChar, h, ih, List.mem_cons, Ne.symm h]

theorem splitOnce_some {s : Str} {c : Char} {a b : Str}
    (h : splitOnce s c = some (a, b)) : hasChar a c = false ∧ s = a ++ c :: b := by
  induction s generalizing a b with
  | nil => simp [splitOnce] at h
  | cons x t ih =>
    simp only [splitOnce] at h
    split at h
    · next hxc =>
      simp only [Option.some.injEq, Prod.mk.injEq] at h
      obtain ⟨h1, h2⟩ := h
      subst hxc h1 h2
      simp [hasChar]
    · next hxc =>
      cases e : splitOnce t c with
      | none => simp [e] at h
      | some q =>
        obtain ⟨a1, b1⟩ := q
        simp only [e] at h
        obtain ⟨h1, h2⟩ := h
        obtain ⟨ih1, ih2⟩ := ih e
        constructor
        · simp [hasChar, hxc, ih1]
        · simp [ih2]

theorem isPre_iff {a b : Str} : isPre a b = true ↔ ∃ t, b = a ++ t := by
  induction a generalizing b with
  | nil => simp [isPre]
  | cons x xs ih =>
    cases b with
    | nil => simp [isPre]
    | cons y ys =>
      by_cases h : x = y
      · subst h
        simp [isPre, ih]
      · simp [isPre, h, Ne.symm h]

theorem trimRevGit_mem {l : Str} {x : Char} (h : x ∈ trimRevGit l) : x ∈ l := by
  induction l using trimRevGit.induct with
  | case1 rest ih =>
    rw [trimRevGit] at h
    have := ih h
    simp [this]
  | case2 l h2 =>
    rw [trimRevGit] at h
    · exact h
    · exact h2

theorem trimRevGit_not_git (l : Str) : isPre gitPatRev (trimRevGit l) = false := by
  induction l using trimRevGit.induct with
  | case1 rest ih =>
    rw [trimRevGit]
    exact ih
  | case2 l h2 =>
    rw [trimRevGit]
    · rw [Bool.eq_false_iff]
      intro hp
      obtain ⟨t, ht⟩ := isPre_iff.mp hp
      exact h2 t ht
    · exact h2

theorem trimEndGit_mem {s : Str} {x : Char} (h : x ∈ trimEndGit s) : x ∈ s := by
  unfold trimEndGit at h
  rw [List.mem_reverse] at h
  have := trimRevGit_mem h
  rwa [List.mem_reverse] at this

theorem trimEndGit_hasChar {s : Str} {c : Char} (h : hasChar s c = false) :
    hasChar (trimEndGit s) c = false := by
  rw [hasChar_false_iff] at h ⊢
  intro hmem
  exact h (trimEndGit_mem hmem)

theorem trimEndGit_no_git_suffix (s : Str) : hasGitSuffix (trimEndGit s) = false := by
  unfold hasGitSuffix trimEndGit
  rw [List.reverse_reverse]
  exact trimRevGit_not_git s.reverse

theorem splitAll_no_sep {s : Str} {c : Char} (h : hasChar s c = false) :
    splitAll s c = [s] := by
  induction s with
  | nil => rfl
  | cons x t ih =>
    simp only [hasChar] at h
    split at h
    · exact absurd h (by simp)
    · next hxc =>
      simp only [splitAll, hxc, if_false, ih h]

theorem pathPush_single {p : FPath} {c : Str} (hne : c ≠ [])
    (hsep : hasChar c '/' = false) : pathPush p c = p ++ [c] := by
  cases c with
  | nil => exact absurd rfl hne
  | cons ch t =>
    have hch : ch ≠ '/' := by
      simp only [hasChar] at hsep
      split at hsep
      · exact absurd hsep (by simp)
      · assumption
    simp only [pathPush, splitAll_no_sep hsep]
    have hflt : (List.filter (fun x => !x.isEmpty) [ch :: t]) = [ch :: t] := by
      simp [List.filter]
    rw [hflt]
    split
    · next heq =>
      simp only [List.cons.injEq] at heq
      exact absurd heq.1 hch
    · rfl

/-! Helper lemmas about the modelled URL parser. -/

theorem mkParsed_some {h p : Str} {g : GitUrlParsed} (hm : mkParsed h p = some g) :
    g = ⟨some h, p⟩ ∧ h ≠ [] ∧ hasChar h '/' = false ∧ validOwnerName p = true := by
  unfold mkParsed at hm
  split at hm
  · next hc =>
    simp only [Option.some.injEq] at hm
    exact ⟨hm.symm, hc.1, hc.2.1, hc.2.2⟩
  · exact absurd hm (by simp)

theorem validOwnerName_true {p : Str} (hv : validOwnerName p = true) :
    ∃ o n, splitOnce p '/' = some (o, n) ∧ o ≠ [] ∧ hasChar n '/' = false ∧
      trimEndGit n ≠ [] := by
  unfold validOwnerName at hv
  split at hv
  · exact absurd hv (by simp)
  · next o n heq =>
    simp only [Bool.and_eq_true, decide_eq_true_eq, Bool.not_eq_true'] at hv
    exact ⟨o, n, heq, hv.1.1, hv.1.2, hv.2⟩

theorem parseUrl_some {u : Str} {g : GitUrlParsed} (hp : parseUrl u = some g) :
    ∃ h, g.host = some h ∧ h ≠ [] ∧ hasChar h '/' = false ∧
      validOwnerName g.path = true := by
  unfold parseUrl at hp
  split at hp
  · split at hp
    · exact absurd hp (by simp)
    · obtain ⟨hg, h1, h2, h3⟩ := mkParsed_some hp
      subst hg
      exact ⟨_, rfl, h1, h2, h3⟩
  · split at hp
    · split at hp
      · exact absurd hp (by simp)
      · obtain ⟨hg, h1, h2, h3⟩ := mkParsed_some hp
        subst hg
        exact ⟨_, rfl, h1, h2, h3⟩
    · split at hp
      · exact absurd hp (by simp)
      · split at hp
        · exact absurd hp (by simp)
        · split at hp
          · exact absurd hp (by simp)
          · obtain ⟨hg, h1, h2, h3⟩ := mkParsed_some hp
            subst hg
            exact ⟨_, rfl, h1, h2, h3⟩

/-! Helper lemmas about per-repository planning. -/

theorem planFromUrl_ok_some {ghq : FPath} {url : Str} {d : FPath}
    (hpl : planFromUrl ghq url = .ok (some d)) :
    ∃ h o n, d = ghq ++ [h, o, n] ∧ h ≠ [] ∧ o ≠ [] ∧ n ≠ [] := by
  unfold planFromUrl at hpl
  split at hpl
  · exact absurd hpl (by simp)
  · next g heq =>
    split at hpl
    · exact absurd hpl (by simp)
    · next o rn hsp =>
      split at hpl
      · exact absurd hpl (by simp)
      · next h hh =>
        simp only [Except.ok.injEq, Option.some.injEq] at hpl
        obtain ⟨h1, hh1, hne, hsep, hvo⟩ := parseUrl_some heq
        rw [hh] at hh1
        simp only [Option.some.injEq] at hh1
        subst hh1
        obtain ⟨o1, n1, hsp1, ho1, hn1, htr1⟩ := validOwnerName_true hvo
        rw [hsp] at hsp1
        simp only [Option.some.injEq, Prod.mk.injEq] at hsp1
        obtain ⟨ho2, hn2⟩ := hsp1
        subst ho2 hn2
        have hosep : hasChar o '/' = false := (splitOnce_some hsp).1
        have htrsep : hasChar (trimEndGit rn) '/' = false := trimEndGit_hasChar hn1
        rw [pathPush_single hne hsep, pathPush_single ho1 hosep,
          pathPush_single htr1 htrsep] at hpl
        exact ⟨h, o, trimEndGit rn, by simp [← hpl], hne, ho1, htr1⟩

theorem planFromUrl_isOk (ghq : FPath) (url : Str) :
    ∃ o, planFromUrl ghq url = .ok o := by
  unfold planFromUrl
  split
  · exact ⟨none, rfl⟩
  · next g heq =>
    split
    · exact ⟨none, rfl⟩
    · obtain ⟨h, hh, _⟩ := parseUrl_some heq
      rw [hh]
      exact ⟨_, rfl⟩

theorem planRepo_isOk (w : World) (g : FPath) (r : FPath) :
    ∃ o, planRepo w g r = .ok o := by
  unfold planRepo
  split
  · exact ⟨none, rfl⟩
  · split
    · exact ⟨none, rfl⟩
    · split
      · exact ⟨none, rfl⟩
      · exact ⟨none, rfl⟩
      · next url hrem =>
        obtain ⟨o, ho⟩ := planFromUrl_isOk g url
        rw [ho]
        cases o with
        | none => exact ⟨none, rfl⟩
        | some dest => exact ⟨some (r, dest), rfl⟩

theorem planRepo_eq (w : World) (g : FPath) (r : FPath) :
    planRepo w g r = .ok (planRepoOpt w g r) := by
  obtain ⟨o, ho⟩ := planRepo_isOk w g r
  simp [planRepoOpt, ho]

theorem planRepoOpt_some {w : World} {g r : FPath} {pl : FPath × FPath}
    (hp : planRepoOpt w g r = some pl) :
    pl.1 = r ∧ ∃ h o n, pl.2 = g ++ [h, o, n] ∧ h ≠ [] ∧ o ≠ [] ∧ n ≠ [] := by
  unfold planRepoOpt at hp
  cases hpr : planRepo w g r with
  | error e => rw [hpr] at hp; exact absurd hp (by simp)
  | ok o =>
    rw [hpr] at hp
    simp only at hp
    subst hp
    unfold planRepo at hpr
    split at hpr
    · exact absurd hpr (by simp)
    · split at hpr
      · exact absurd hpr (by simp)
      · split at hpr
        · exact absurd hpr (by simp)
        · exact absurd hpr (by simp)
        · next url =>
          split at hpr
          · exact absurd hpr (by simp)
          · exact absurd hpr (by simp)
          · next dest hurl =>
            simp only [Except.ok.injEq, Option.some.injEq] at hpr
            subst hpr
            exact ⟨rfl, planFromUrl_ok_some hurl⟩

theorem goPlans_eq (w : World) (g : FPath) (l : List FPath) :
    goPlans w g l = .ok (l.filterMap (planRepoOpt w g)) := by
  induction l with
  | nil => rfl
  | cons r rs ih =>
    unfold goPlans
    rw [planRepo_eq, ih]
    simp only [List.filterMap_cons]
    cases planRepoOpt w g r <;> rfl

theorem findGitRepos_eq {w : World} {g : FPath} (hres : resolveGhqDir w = .ok g) :
    findGitRepos w = .ok ((scanRoots w).filterMap (planRepoOpt w g)) := by
  unfold findGitRepos
  rw [hres]
  exact goPlans_eq w g (scanRoots w)

theorem findGitRepos_mem {w : World} {plans : List (FPath × FPath)} {pl : FPath × FPath}
    (hf : findGitRepos w = .ok plans) (hmem : pl ∈ plans) :
    ∃ g, resolveGhqDir w = .ok g ∧
      ∃ h o n, pl.2 = g ++ [h, o, n] ∧ h ≠ [] ∧ o ≠ [] ∧ n ≠ [] := by
  unfold findGitRepos at hf
  cases hres : resolveGhqDir w with
  | error e =>
    simp only [hres] at hf
    exact absurd hf (by simp)
  | ok g =>
    simp only [hres, goPlans_eq, Except.ok.injEq] at hf
    subst hf
    rw [List.mem_filterMap] at hmem
    obtain ⟨r, _, hpr⟩ := hmem
    obtain ⟨_, hsh⟩ := planRepoOpt_some hpr
    exact ⟨g, rfl, hsh⟩

theorem findGitRepos_dest_ne_nil {w : World} {plans : List (FPath × FPath)}
    {pl : FPath × FPath} (hf : findGitRepos w = .ok plans) (hmem : pl ∈ plans) :
    pl.2 ≠ [] := by
  obtain ⟨g, _, h, o, n, hsh, _⟩ := findGitRepos_mem hf hmem
  simp [hsh]

/-! Helper lemmas about the move loop. -/

theorem pathParent_ne {p : FPath} (h : p ≠ []) : pathParent p = some p.dropLast := by
  cases p with
  | nil => exact absurd rfl h
  | cons a t => rfl

theorem moveOne_isSome (fs : Fs) {pl : FPath × FPath} (h : pl.2 ≠ []) :
    ∃ r, moveOne fs pl = some r := by
  unfold moveOne
  split
  · exact ⟨_, rfl⟩
  · simp only [pathParent_ne h]
    split
    · exact ⟨_, rfl⟩
    · split
      · exact ⟨_, rfl⟩
      · exact ⟨_, rfl⟩

theorem movePlans_total {plans : List (FPath × FPath)}
    (hne : ∀ pl ∈ plans, pl.2 ≠ []) (fs : Fs) :
    ∃ outs fs1, movePlans fs plans = some (outs, fs1) ∧ outs.map Prod.fst = plans := by
  induction plans generalizing fs with
  | nil => exact ⟨[], fs, rfl, rfl⟩
  | cons pl rest ih =>
    obtain ⟨r, hr⟩ := moveOne_isSome fs (hne pl (by simp))
    obtain ⟨o, fs1⟩ := r
    obtain ⟨outs, fs2, hmp, hmap⟩ := ih (fun q hq => hne q (by simp [hq])) fs1
    refine ⟨(pl, o) :: outs, fs2, ?_, ?_⟩
    · simp [movePlans, hr, hmp]
    · simp [hmap]

theorem mainInner_exit_zero {w : World} {g : FPath} (hres : resolveGhqDir w = .ok g)
    (ans : Bool) (fs : Fs) : (mainInner w ans fs).exit = 0 := by
  have hf := findGitRepos_eq hres
  unfold mainInner
  rw [hf]
  by_cases hemp : ((scanRoots w).filterMap (planRepoOpt w g)).isEmpty
  · simp [hemp]
  · simp only [hemp]
    cases ans with
    | false => simp
    | true =>
      obtain ⟨outs, fs1, hmp, _⟩ :=
        movePlans_total (fun pl hpl => findGitRepos_dest_ne_nil hf hpl) fs
      simp [hmp]

theorem findGitRepos_ok_resolve {w : World} {plans : List (FPath × FPath)}
    (hf : findGitRepos w = .ok plans) : ∃ g, resolveGhqDir w = .ok g := by
  unfold findGitRepos at hf
  cases hres : resolveGhqDir w with
  | error e =>
    simp only [hres] at hf
    exact absurd hf (by simp)
  | ok g => exact ⟨g, rfl⟩

theorem lookupTree_rename_dest {ts : List (FPath × Nat)} {src dest : FPath}
    (hd : lookupTree ts dest = none) :
    lookupTree (ts.map (fun e => if e.1 = src then (dest, e.2) else e)) dest =
      lookupTree ts src := by
  induction ts with
  | nil => rfl
  | cons e t ih =>
    simp only [lookupTree] at hd
    split at hd
    · exact absurd hd (by simp)
    · next hed =>
      by_cases hes : e.1 = src
      · simp [lookupTree, hes]
      · simp only [List.map, hes, if_false]
        simp only [lookupTree, hed, if_false, hes]
        exact ih hd

theorem lookupTree_rename_src {ts : List (FPath × Nat)} {src dest : FPath}
    (hne : src ≠ dest) :
    lookupTree (ts.map (fun e => if e.1 = src then (dest, e.2) else e)) src = none := by
  induction ts with
  | nil => rfl
  | cons e t ih =>
    by_cases hes : e.1 = src
    · simp only [List.map, hes, if_true]
      simp only [lookupTree, Ne.symm hne, if_false]
      exact ih
    · simp only [List.map, hes, if_false]
      simp only [lookupTree, hes, if_false]
      exact ih

/-! The claims. -/

/-- C9: the scanner never enters a directory entry that is a symbolic link.
The traversal filter admits only plain directories, so the scan result is
unchanged when every symbolic-link entry is removed from the tree: a
repository reachable only through a symlinked directory is never emitted,
and following links can never revisit a subtree. -/
theorem scan_never_follows_symlinks (f : FsForest) :
    scanForest (pruneLinks f) = scanForest f := by
  induction f using scanForest.induct with
  | case1 => rfl
  | case2 n cs rest ihc ihr =>
    simp only [pruneLinks, scanForest, ihc, ihr]
  | case3 name rest ihr =>
    simp only [pruneLinks, scanForest, ihr]
  | case4 name target rest ihr =>
    simp only [pruneLinks, scanForest, ihr]

/-- C2 (amended): the traversal never descends into a version-control
metadata directory itself — no emitted repository root's path passes
through a `.git` component — although, contrary to the original claim,
repository roots strictly inside another emitted root's subtree can still
be emitted (see the counterexample). -/
theorem scan_never_enters_metadata_dir {f : FsForest} :
    ∀ q ∈ scanForest f, gitDirName ∉ q := by
  induction f using scanForest.induct with
  | case1 => simp [scanForest]
  | case2 n cs rest ihc ihr =>
    intro q hq
    simp only [scanForest] at hq
    rw [List.mem_append] at hq
    cases hq with
    | inl hql =>
      split at hql
      · next hgit =>
        simp only [List.mem_singleton] at hql
        subst hql
        simp
      · next hgit =>
        rw [List.mem_map] at hql
        obtain ⟨q1, hq1, hq2⟩ := hql
        subst hq2
        intro hmem
        rw [List.mem_cons] at hmem
        cases hmem with
        | inl heq => exact hgit heq.symm
        | inr hin => exact ihc q1 hq1 hin
    | inr hqr => exact ihr q hqr
  | case3 name rest ihr => exact ihr
  | case4 name target rest ihr => exact ihr

/-- Witness for C2 (amended): in `linkForest` the root `b` is emitted and
its path contains no metadata-directory component. -/
theorem scan_never_enters_metadata_dir_witness :
    [str "b"] ∈ scanForest linkForest ∧ gitDirName ∉ ([str "b"] : FPath) :=
  ⟨by decide, scan_never_enters_metadata_dir [str "b"]
    (show [str "b"] ∈ scanForest linkForest by decide)⟩

/-- Counterexample for C2 as stated: in `wNested`, the scan emits both
`work/a` and `work/a/vendor/lib`, the latter strictly inside the former's
subtree, and `find_git_repos` plans both — `skip_current_dir()` on the
`.git` entry prunes only the contents of the metadata directory, not the
rest of the repository's subtree. -/
theorem scan_emits_nested_repo_root :
    findGitRepos wNested = .ok
      [ ([str "work", str "a", str "vendor", str "lib"],
         [str "home", str "u", str "ghq", str "example.com", str "alice", str "vendored"])
      , ([str "work", str "a"],
         [str "home", str "u", str "ghq", str "example.com", str "alice", str "proj"]) ] ∧
    ([str "work", str "a", str "vendor", str "lib"] : FPath) =
      [str "work", str "a"] ++ [str "vendor", str "lib"] ∧
    ([str "vendor", str "lib"] : FPath) ≠ [] :=
  ⟨rfl, rfl, by decide⟩

/-- C1: a per-repository failure (open failure, missing `origin`, missing
URL, unparseable URL, path without two segments) excludes only that
repository: `find_git_repos` returns exactly the plans of the repositories
whose whole chain succeeds, and the process exit status of a run is 0
whenever the workspace root resolves. -/
theorem per_repo_failures_never_abort_run (w : World) (g : FPath)
    (hres : resolveGhqDir w = .ok g) :
    findGitRepos w = .ok ((scanRoots w).filterMap (planRepoOpt w g)) ∧
    ∀ (ans : Bool) (fs : Fs), (mainInner w ans fs).exit = 0 :=
  ⟨findGitRepos_eq hres, fun ans fs => mainInner_exit_zero hres ans fs⟩

/-- Witness for C1: in `wMixed` (one unparseable remote, one good
repository, one that fails to open) only the good repository is planned and
the run exits with status 0. -/
theorem per_repo_failures_never_abort_run_witness :
    resolveGhqDir wMixed = .ok [str "home", str "u", str "ghq"] ∧
    findGitRepos wMixed =
      .ok ((scanRoots wMixed).filterMap (planRepoOpt wMixed [str "home", str "u", str "ghq"])) ∧
    (scanRoots wMixed).filterMap (planRepoOpt wMixed [str "home", str "u", str "ghq"]) =
      [([str "work", str "a"],
        [str "home", str "u", str "ghq", str "example.com", str "alice", str "proj"])] ∧
    (mainInner wMixed true fsGood).exit = 0 :=
  ⟨rfl, (per_repo_failures_never_abort_run wMixed [str "home", str "u", str "ghq"] rfl).1, rfl,
    (per_repo_failures_never_abort_run wMixed [str "home", str "u", str "ghq"] rfl).2 true fsGood⟩

/-- C3: when the destination of a plan already exists, the relocation step
returns the skipped-exists outcome and leaves the filesystem state exactly
unchanged — no directory creation, no rename. -/
theorem relocate_skips_existing_destination (fs : Fs) (pl : FPath × FPath)
    (h : fsExists fs pl.2 = true) : moveOne fs pl = some (.skippedExists, fs) := by
  simp [moveOne, h]

/-- Witness for C3 at a concrete state whose destination pre-exists. -/
theorem relocate_skips_existing_destination_witness :
    moveOne fsHasDest plGood = some (.skippedExists, fsHasDest) :=
  relocate_skips_existing_destination fsHasDest plGood (by decide)

/-- C4: every URL accepted by the parser splits into a non-empty owner
containing no separator and a name that, after trimming the trailing
`.git`, is non-empty, contains no separator, and no longer ends in `.git`;
a path without two separable segments is never accepted. -/
theorem parsed_location_wellformed {u : Str} {g : GitUrlParsed}
    (hp : parseUrl u = some g) :
    ∃ o n, splitOnce g.path '/' = some (o, n) ∧ o ≠ [] ∧ hasChar o '/' = false ∧
      trimEndGit n ≠ [] ∧ hasChar (trimEndGit n) '/' = false ∧
      hasGitSuffix (trimEndGit n) = false := by
  obtain ⟨h, _, _, hvo⟩ := parseUrl_some hp
  obtain ⟨o, n, hsp, ho, hn, htr⟩ := validOwnerName_true hvo.2
  exact ⟨o, n, hsp, ho, (splitOnce_some hsp).1, htr, trimEndGit_hasChar hn,
    trimEndGit_no_git_suffix n⟩

/-- Witness for C4 at the HTTPS scenario URL. -/
theorem parsed_location_wellformed_witness :
    ∃ o n, splitOnce (str "alice/proj.git") '/' = some (o, n) ∧ o ≠ [] ∧
      hasChar o '/' = false ∧ trimEndGit n ≠ [] ∧
      hasChar (trimEndGit n) '/' = false ∧ hasGitSuffix (trimEndGit n) = false :=
  parsed_location_wellformed
    (show parseUrl (str "https://example.com/alice/proj.git") =
      some ⟨some (str "example.com"), str "alice/proj.git"⟩ from rfl)

/-- C5: the scp-like URL `git@example.com:alice/proj.git` and the HTTPS URL
`https://example.com/alice/proj.git` parse identically and produce the
identical destination `ghq/example.com/alice/proj` under every workspace
root. -/
theorem scp_https_same_destination :
    parseUrl (str "git@example.com:alice/proj.git") =
      parseUrl (str "https://example.com/alice/proj.git") ∧
    ∀ ghq : FPath,
      planFromUrl ghq (str "git@example.com:alice/proj.git") =
        planFromUrl ghq (str "https://example.com/alice/proj.git") ∧
      planFromUrl ghq (str "https://example.com/alice/proj.git") =
        .ok (some (ghq ++ [str "example.com", str "alice", str "proj"])) := by
  refine ⟨rfl, fun ghq => ⟨rfl, ?_⟩⟩
  have e1 : planFromUrl ghq (str "https://example.com/alice/proj.git") =
      .ok (some (pathPush (pathPush (pathPush ghq (str "example.com")) (str "alice"))
        (str "proj"))) := rfl
  rw [e1, pathPush_single (show str "example.com" ≠ [] from by decide) (by decide),
    pathPush_single (show str "alice" ≠ [] from by decide) (by decide),
    pathPush_single (show str "proj" ≠ [] from by decide) (by decide)]
  simp

/-- C6: executing the relocation step twice on the same plan, starting from
a state where the source tree is present and the destination absent, yields
the moved outcome and then the skipped-exists outcome; the second execution
leaves the state untouched, and the moved content survives at the
destination while the source entry is gone. -/
theorem relocate_twice_moved_then_skipped (fs : Fs) (pl : FPath × FPath) (v : Nat)
    (hsrc : lookupTree fs.trees pl.1 = some v)
    (hdest : fsExists fs pl.2 = false)
    (hne : pl.2 ≠ [])
    (hcr : containsP fs.createFails pl.2.dropLast = false)
    (hrn : containsP fs.renameFails pl.1 = false) :
    ∃ fs1, moveOne fs pl = some (.moved, fs1) ∧
      moveOne fs1 pl = some (.skippedExists, fs1) ∧
      lookupTree fs1.trees pl.2 = some v ∧
      lookupTree fs1.trees pl.1 = none := by
  have hdn : lookupTree fs.trees pl.2 = none := by
    cases e : lookupTree fs.trees pl.2 with
    | none => rfl
    | some x =>
      unfold fsExists at hdest
      rw [e] at hdest
      simp at hdest
  have hsdne : pl.1 ≠ pl.2 := by
    intro h
    rw [h, hdn] at hsrc
    exact absurd hsrc (by simp)
  refine ⟨renameTree (mkdirAll fs pl.2.dropLast) pl.1 pl.2, ?_, ?_, ?_, ?_⟩
  · unfold moveOne
    rw [hdest, pathParent_ne hne]
    simp [mkdirAll, hcr, hrn, hsrc]
  · have htd : lookupTree (renameTree (mkdirAll fs pl.2.dropLast) pl.1 pl.2).trees pl.2 =
        some v := (lookupTree_rename_dest hdn).trans hsrc
    have hex : fsExists (renameTree (mkdirAll fs pl.2.dropLast) pl.1 pl.2) pl.2 = true := by
      simp [fsExists, htd]
    simp [moveOne, hex]
  · exact (lookupTree_rename_dest hdn).trans hsrc
  · exact lookupTree_rename_src hsdne

/-- Witness for C6 at `wGood`'s plan and source state. -/
theorem relocate_twice_moved_then_skipped_witness :
    ∃ fs1, moveOne fsGood plGood = some (.moved, fs1) ∧
      moveOne fs1 plGood = some (.skippedExists, fs1) ∧
      lookupTree fs1.trees plGood.2 = some 7 ∧
      lookupTree fs1.trees plGood.1 = none :=
  relocate_twice_moved_then_skipped fsGood plGood 7 (by decide) (by decide) (by decide)
    (by decide) (by decide)

/-- C7: during execution of a confirmed plan list, every plan is processed
regardless of the outcomes of the others — the loop yields one outcome per
plan, in order — and the process still exits with status 0. -/
theorem move_loop_processes_all_plans {w : World} {plans : List (FPath × FPath)}
    (hf : findGitRepos w = .ok plans) (fs : Fs) :
    ∃ outs fs1, movePlans fs plans = some (outs, fs1) ∧ outs.map Prod.fst = plans ∧
      (mainInner w true fs).exit = 0 := by
  obtain ⟨outs, fs1, hmp, hmap⟩ :=
    movePlans_total (fun pl hpl => findGitRepos_dest_ne_nil hf hpl) fs
  obtain ⟨g, hres⟩ := findGitRepos_ok_resolve hf
  exact ⟨outs, fs1, hmp, hmap, mainInner_exit_zero hres true fs⟩

/-- Witness for C7: in `wTwo` with `fsFailFirst`, the first plan's directory
creation fails yet both plans are processed and the run exits 0. -/
theorem move_loop_processes_all_plans_witness :
    (∃ outs fs1, movePlans fsFailFirst plansTwo = some (outs, fs1) ∧
      outs.map Prod.fst = plansTwo ∧ (mainInner wTwo true fsFailFirst).exit = 0) ∧
    (movePlans fsFailFirst plansTwo).map (fun r => r.1.map Prod.snd) =
      some [Outcome.failedCreate, Outcome.moved] :=
  ⟨move_loop_processes_all_plans (show findGitRepos wTwo = .ok plansTwo from rfl)
    fsFailFirst, rfl⟩

/-- C8: when the scan finds no repository, the program prints the notice,
never shows the confirmation prompt, performs no filesystem mutation, and
exits with status 0. -/
theorem empty_scan_exits_cleanly (w : World) (ans : Bool) (fs : Fs)
    (hf : findGitRepos w = .ok []) :
    mainInner w ans fs = ⟨0, false, fs, [noReposNotice]⟩ := by
  unfold mainInner
  rw [hf]
  rfl

/-- Witness for C8 at a world whose scan root holds no repository. -/
theorem empty_scan_exits_cleanly_witness :
    mainInner wEmpty true fsGood = ⟨0, false, fsGood, [noReposNotice]⟩ :=
  empty_scan_exits_cleanly wEmpty true fsGood rfl

/-- C10: every plan produced by `find_git_repos` has a destination that is
the workspace root extended by three non-empty components (host, owner,
name), so the destination always has a parent and the `unwrap` in the move
loop cannot panic. -/
theorem plan_destination_has_parent {w : World} {plans : List (FPath × FPath)}
    {pl : FPath × FPath} (hf : findGitRepos w = .ok plans) (hmem : pl ∈ plans) :
    ∃ g h o n, resolveGhqDir w = .ok g ∧ pl.2 = g ++ [h, o, n] ∧
      h ≠ [] ∧ o ≠ [] ∧ n ≠ [] ∧ pathParent pl.2 = some (g ++ [h, o]) := by
  obtain ⟨g, hres, h, o, n, hsh, hh, ho, hn⟩ := findGitRepos_mem hf hmem
  refine ⟨g, h, o, n, hres, hsh, hh, ho, hn, ?_⟩
  rw [hsh, pathParent_ne (by simp)]
  have hsplit : g ++ [h, o, n] = (g ++ [h, o]) ++ [n] := by simp
  rw [hsplit, List.dropLast_concat]

/-- Witness for C10 at `wGood`'s single plan. -/
theorem plan_destination_has_parent_witness :
    ∃ g h o n, resolveGhqDir wGood = .ok g ∧ plGood.2 = g ++ [h, o, n] ∧
      h ≠ [] ∧ o ≠ [] ∧ n ≠ [] ∧ pathParent plGood.2 = some (g ++ [h, o]) :=
  plan_destination_has_parent (show findGitRepos wGood = .ok [plGood] from rfl)
    (List.mem_singleton.mpr rfl)

end GhqMover
